import Mathlib

/-!
Verification development for the Czech syllabification / text-segmentation
core of the `slabikyx` repository (`src/stores/textStore.ts`).

Strings are modelled as `List Char` (JavaScript strings restricted to the
Basic Multilingual Plane, where one UTF-16 code unit is one character).
`splitIntoSyllables` below is a direct translation of the function of the
same name in `textStore.ts`; `processedText` translates the `processedText`
computed property of the store.
-/

namespace Slabikyx

/-- The sentence-terminating punctuation characters of the regular
expression `[.!?]` used by the sentence splitter. -/
def isSentPunct (c : Char) : Bool :=
  c = '.' || c = '!' || c = '?'

/-- The word-trailing punctuation characters of the regular expression
`[.,!?;:]` used by `splitIntoSyllables`. -/
def isWordPunct (c : Char) : Bool :=
  c = '.' || c = ',' || c = '!' || c = '?' || c = ';' || c = ':'

/-- JavaScript `\s` (whitespace class), restricted to the ASCII whitespace
characters plus NBSP; other Unicode space characters do not occur in the
repository's data and are treated as ordinary characters. -/
def isJsSpace (c : Char) : Bool :=
  c = ' ' || c = '\t' || c = '\n' || c = '\r' ||
  c = Char.ofNat 11 || c = Char.ofNat 12 || c = Char.ofNat 0xA0

/-- JavaScript `String.prototype.toLowerCase`, restricted to ASCII letters
and the uppercase Czech letters (the only cased characters relevant to the
source); all other characters are returned unchanged. -/
def jsToLower (c : Char) : Char :=
  if 'A' ≤ c ∧ c ≤ 'Z' then Char.ofNat (c.toNat + 32)
  else match c with
  | 'Á' => 'á' | 'Č' => 'č' | 'Ď' => 'ď' | 'É' => 'é' | 'Ě' => 'ě'
  | 'Í' => 'í' | 'Ň' => 'ň' | 'Ó' => 'ó' | 'Ř' => 'ř' | 'Š' => 'š'
  | 'Ť' => 'ť' | 'Ú' => 'ú' | 'Ů' => 'ů' | 'Ý' => 'ý' | 'Ž' => 'ž'
  | _ => c

/-- `word.match(/([.,!?;:]+)$/)` — the maximal trailing run of word
punctuation. -/
def punctOf (w : List Char) : List Char :=
  (w.reverse.takeWhile isWordPunct).reverse

/-- `word.replace(/[.,!?;:]+$/, '')` — the word with its maximal trailing
punctuation run removed. -/
def stemOf (w : List Char) : List Char :=
  (w.reverse.dropWhile isWordPunct).reverse

/-- The `specialCases` table of `splitIntoSyllables`, verbatim from the
source. -/
def specialCases : List (List Char × List (List Char)) :=
  [("krtka".toList, ["krt".toList, "ka".toList]),
   ("jemnou".toList, ["jem".toList, "nou".toList]),
   ("mnoho".toList, ["mno".toList, "ho".toList]),
   ("černou".toList, ["čer".toList, "nou".toList]),
   ("dohlédne".toList, ["do".toList, "hléd".toList, "ne".toList]),
   ("mlsá".toList, ["ml".toList, "sá".toList]),
   ("zahradní".toList, ["za".toList, "hrad".toList, "ní".toList]),
   ("zahradníci".toList, ["za".toList, "hrad".toList, "ní".toList, "ci".toList]),
   ("zahrady".toList, ["za".toList, "hra".toList, "dy".toList]),
   ("mrkev".toList, ["mr".toList, "kev".toList]),
   ("rostlinám".toList, ["rost".toList, "li".toList, "nám".toList]),
   ("odlákat".toList, ["od".toList, "lá".toList, "kát".toList])]

/-- `specialCases[key]` — property lookup on the special-case object. -/
def lookupSpecial (key : List Char) : Option (List (List Char)) :=
  (specialCases.find? (fun e => e.1 = key)).map (fun e => e.2)

/-- The Czech vowels of the source's `vowels` array. -/
def isVowel (c : Char) : Bool :=
  c ∈ ['a', 'á', 'e', 'é', 'ě', 'i', 'í', 'o', 'ó', 'u', 'ú', 'ů', 'y', 'ý']

/-- The source's `syllabicConsonants` array. -/
def isSyllabicConsonant (c : Char) : Bool :=
  c ∈ ['r', 'l']

/-- The source's `obstruents` array.  The array also contains the two-letter
string `'ch'`, which can never equal the single character it is compared
against in the source (`obstruents.includes(c)` with `c` one character), so
it is omitted here; `'c'` and `'h'` are separately present. -/
def isObstruent (c : Char) : Bool :=
  c ∈ ['p', 'b', 't', 'd', 'ť', 'ď', 'k', 'g', 'f', 'v', 's', 'z', 'š', 'ž',
       'h', 'c', 'č']

/-- Character of `s` at index `i` (indices used below are always in
bounds; the default is never reached). -/
def charAt (s : List Char) (i : Nat) : Char :=
  s.getD i ' '

/-- One iteration of the nucleus-detection loop of `splitIntoSyllables`:
position `i` of the stem is a syllable nucleus if it holds a vowel, or a
syllabic consonant (`r`/`l`) whose neighbours (or the word boundary) are
both non-vowels.  Case-insensitive, as in the source. -/
def isNucleus (s : List Char) (i : Nat) : Bool :=
  let c := jsToLower (charAt s i)
  if isVowel c then true
  else if isSyllabicConsonant c then
    let prevIsConsonant := i = 0 || !(isVowel (jsToLower (charAt s (i - 1))))
    let nextIsConsonant := i = s.length - 1 || !(isVowel (jsToLower (charAt s (i + 1))))
    prevIsConsonant && nextIsConsonant
  else false

/-- `syllableNucleiPositions` — all nucleus positions of the stem, in
increasing order. -/
def nucleiPositions (s : List Char) : List Nat :=
  (List.range s.length).filter (fun i => isNucleus s i)

/-- JavaScript `s.substring(a, b)`: the characters of `s` between indices
`a` and `b` (swapped when out of order, clamped to the string length). -/
def jsSubstring (s : List Char) (a b : Nat) : List Char :=
  if a ≤ b then (s.take b).drop a else (s.take a).drop b

/-- The split position chosen by the body of the boundary-placement loop of
`splitIntoSyllables` for the adjacent nucleus pair `(currentPos, nextPos)`:
the code lowercases the substring strictly between the two nuclei and
branches on its length (0, 1, 2, or more). -/
def splitPosFor (s : List Char) (currentPos nextPos : Nat) : Nat :=
  let betweenNuclei := (jsSubstring s (currentPos + 1) nextPos).map jsToLower
  let consonantCount := betweenNuclei.length
  if consonantCount = 0 then currentPos + 1
  else if consonantCount = 1 then currentPos + 1
  else if consonantCount = 2 then
    let firstC := charAt betweenNuclei 0
    let secondC := charAt betweenNuclei 1
    let isSonant := fun c => !(isObstruent c) && !(isVowel c)
    if (isObstruent firstC && isSonant secondC) ||
        (isObstruent firstC && secondC = 'v') then
      currentPos + 1
    else if betweenNuclei = "ďm".toList || betweenNuclei = "bv".toList then
      currentPos + 1
    else
      currentPos + 2
  else currentPos + 2

/-- The list of split positions produced by the loop over adjacent nucleus
pairs (`for i in 0 .. nuclei.length - 2`). -/
def splitBoundaries (s : List Char) : List Nat → List Nat
  | a :: b :: rest => splitPosFor s a b :: splitBoundaries s (b :: rest)
  | _ => []

/-- `syllables[syllables.length - 1] += punctuation` — append to the last
element; the empty list is unchanged (the source guards with
`syllables.length > 0`). -/
def appendToLast : List (List Char) → List Char → List (List Char)
  | [], _ => []
  | [x], p => [x ++ p]
  | x :: y :: xs, p => x :: appendToLast (y :: xs) p

/-- The syllable-assembly loop: each split position closes the syllable
`substring(startIndex, splitPos)`, and after the loop the remainder
`substring(startIndex)` is pushed if non-empty (`startIndex < length`). -/
def buildSyllables (s : List Char) : List Nat → Nat → List (List Char)
  | [], startIndex =>
      if startIndex < s.length then [s.drop startIndex] else []
  | b :: bs, startIndex => jsSubstring s startIndex b :: buildSyllables s bs b

/-- `splitIntoSyllables` from `textStore.ts`, translated clause by clause:
trivial short words, trailing-punctuation extraction, special-case lookup
on the lowercased stem, nucleus detection, degenerate cases, and the
boundary-placement loop. -/
def splitIntoSyllables (word : List Char) : List (List Char) :=
  if word.length ≤ 1 then [word]
  else
    let punctuation := punctOf word
    let wordWithoutPunct := stemOf word
    match lookupSpecial (wordWithoutPunct.map jsToLower) with
    | some syllables =>
        if punctuation = [] then syllables else appendToLast syllables punctuation
    | none =>
      let ns := nucleiPositions wordWithoutPunct
      if ns.length = 0 then [word]
      else if ns.length = 1 then [word]
      else
        let syllables := buildSyllables wordWithoutPunct (splitBoundaries wordWithoutPunct ns) 0
        if punctuation = [] then syllables else appendToLast syllables punctuation

/-- `splitIntoSyllables` on ordinary strings. -/
def syllabifyStr (w : String) : List String :=
  (splitIntoSyllables w.toList).map (fun l => String.mk l)

/-- Scanning state of `text.split(/([.!?]+\s*)/)`: inside a content
fragment, inside the `[.!?]+` part of a separator match, or inside its
trailing `\s*` part. -/
inductive SplitMode : Type
  | content : SplitMode
  | punct : SplitMode
  | space : SplitMode

/-- Left-to-right scan implementing `text.split(/([.!?]+\s*)/)` (split with
a captured separator): separator matches are maximal runs of `[.!?]`
followed by a maximal run of whitespace, and the captured separators appear
in the output between the content fragments (which may be empty at the ends
and between adjacent separator matches). `buf` is the fragment being
accumulated in mode `m`. -/
def jsSplitSentGo : List Char → SplitMode → List Char → List (List Char)
  | [], .content, buf => [buf]
  | [], _, buf => [buf, []]
  | c :: rest, .content, buf =>
      if isSentPunct c then buf :: jsSplitSentGo rest .punct [c]
      else jsSplitSentGo rest .content (buf ++ [c])
  | c :: rest, .punct, buf =>
      if isSentPunct c then jsSplitSentGo rest .punct (buf ++ [c])
      else if isJsSpace c then jsSplitSentGo rest .space (buf ++ [c])
      else buf :: jsSplitSentGo rest .content [c]
  | c :: rest, .space, buf =>
      if isSentPunct c then buf :: [] :: jsSplitSentGo rest .punct [c]
      else if isJsSpace c then jsSplitSentGo rest .space (buf ++ [c])
      else buf :: jsSplitSentGo rest .content [c]

/-- `originalText.value.split(/([.!?]+\s*)/)`. -/
def jsSplitSent (s : List Char) : List (List Char) :=
  jsSplitSentGo s .content []

/-- The `reduce` callback chain of `processedText`, with the running element
index `i` of the JavaScript `reduce` made explicit.  Empty parts are
skipped (falsy); a part containing sentence punctuation with `i > 0` is
appended to the last accumulated sentence — when the accumulator is empty,
the JavaScript `acc[acc.length - 1] += part` assigns to the array property
`-1`, leaving the array's elements unchanged, so the part is dropped;
any other part is pushed. -/
def jsReduceAux (i : Nat) (acc : List (List Char)) :
    List (List Char) → List (List Char)
  | [] => acc
  | part :: rest =>
      if part = [] then jsReduceAux (i + 1) acc rest
      else if part.any isSentPunct && decide (0 < i) then
        match acc with
        | [] => jsReduceAux (i + 1) [] rest
        | _ => jsReduceAux (i + 1) (appendToLast acc part) rest
      else jsReduceAux (i + 1) (acc ++ [part]) rest

/-- The sentence list of `processedText`: split, reduce, and
`filter(Boolean)`. -/
def sentencesOf (text : List Char) : List (List Char) :=
  (jsReduceAux 0 [] (jsSplitSent text)).filter (fun s => !s.isEmpty)

/-- `sentencesOf` on ordinary strings. -/
def sentencesOfStr (s : String) : List String :=
  (sentencesOf s.toList).map (fun l => String.mk l)

/-- JavaScript `String.prototype.trim`. -/
def jsTrim (s : List Char) : List Char :=
  ((s.dropWhile isJsSpace).reverse.dropWhile isJsSpace).reverse

/-- Left-to-right scan implementing `sentence.split(/\s+/)`: fragments are
the maximal runs of non-whitespace characters, with an empty fragment at an
end that touches a whitespace run.  The flag records whether the scan is
inside a whitespace run. -/
def jsSplitWsGo : List Char → Bool → List Char → List (List Char)
  | [], false, buf => [buf]
  | [], true, _ => [[]]
  | c :: rest, false, buf =>
      if isJsSpace c then buf :: jsSplitWsGo rest true []
      else jsSplitWsGo rest false (buf ++ [c])
  | c :: rest, true, buf =>
      if isJsSpace c then jsSplitWsGo rest true buf
      else jsSplitWsGo rest false [c]

/-- `sentence.trim().split(/\s+/)`'s split part. -/
def jsSplitWs (s : List Char) : List (List Char) :=
  jsSplitWsGo s false []

/-- The `type` field of a segment (`'syllable' | 'word' | 'sentence'`). -/
inductive SegKind : Type
  | syllable : SegKind
  | word : SegKind
  | sentence : SegKind
deriving DecidableEq

/-- The `LocalTextSegment` record of `textStore.ts`. -/
structure LocalTextSegment : Type where
  text : List Char
  syllables : List (List (List Char))
  type : SegKind
deriving DecidableEq

/-- The `processedText` computed property: falsy-empty short-circuit,
sentence splitting, and per-sentence segment assembly (`forEach` guarded by
`sentence.trim()`, modelled as `filterMap`). -/
def processedText (originalText : List Char) : List LocalTextSegment :=
  if originalText = [] then []
  else
    (sentencesOf originalText).filterMap (fun sentence =>
      if jsTrim sentence = [] then none
      else some
        { text := jsTrim sentence
          syllables := (jsSplitWs (jsTrim sentence)).map splitIntoSyllables
          type := SegKind.sentence })

/-- `processedText` on ordinary strings. -/
def processedTextStr (s : String) : List LocalTextSegment :=
  processedText s.toList

/-- The `ReadingMode` union type of `types/index.ts`. -/
inductive ReadingMode : Type
  | syllables : ReadingMode
  | words : ReadingMode
  | sentences : ReadingMode
deriving DecidableEq

/-- The `VoiceSettings` record of `types/index.ts`; the numeric rate/pitch
fields and the voice handle are opaque to segmentation, so their types are
parameters. -/
structure VoiceSettings (R V : Type) : Type where
  rate : R
  pitch : R
  voice : Option V

/-- The reactive state of the `text` store: source text, reading mode and
voice settings. -/
structure StoreState (R V : Type) : Type where
  originalText : List Char
  readingMode : ReadingMode
  voiceSettings : VoiceSettings R V

/-- The `processedText` computed property as a function of the whole store
state: it reads only `originalText`. -/
def processedTextOf {R V : Type} (s : StoreState R V) : List LocalTextSegment :=
  processedText s.originalText

/-- Modelled from the claim's words (C3), for comparison with the source's
`splitPosFor`: the boundary between an adjacent pair of nuclei is placed by
the count of characters strictly between them (classification is applied to
the lowercased cluster, as everywhere in the algorithm) — 0 or 1
characters: split immediately after the first nucleus; 2 characters: split
immediately after the first nucleus when the first is an obstruent and the
second is a sonant (neither obstruent nor vowel) or is `v`, otherwise split
after the first consonant unless the cluster is `ďm` or `bv` (then split
immediately after the first nucleus); 3 or more characters: split two
characters after the first nucleus. -/
def claimSplitPos (s : List Char) (currentPos nextPos : Nat) : Nat :=
  let cluster := (jsSubstring s (currentPos + 1) nextPos).map jsToLower
  if cluster.length ≤ 1 then currentPos + 1
  else if cluster.length = 2 then
    if isObstruent (charAt cluster 0) &&
        ((!(isObstruent (charAt cluster 1)) && !(isVowel (charAt cluster 1))) ||
          charAt cluster 1 = 'v') then
      currentPos + 1
    else if cluster = "ďm".toList || cluster = "bv".toList then currentPos + 1
    else currentPos + 2
  else currentPos + 2

/-- The boundary list induced by `claimSplitPos` over adjacent nucleus
pairs (the claim-side counterpart of `splitBoundaries`). -/
def claimBoundaries (s : List Char) : List Nat → List Nat
  | a :: b :: rest => claimSplitPos s a b :: claimBoundaries s (b :: rest)
  | _ => []

/-! ### General lemmas about the embedded operations -/

theorem stemOf_append_punctOf (w : List Char) : stemOf w ++ punctOf w = w := by
  have h := List.takeWhile_append_dropWhile (p := isWordPunct) (l := w.reverse)
  have h2 : (w.reverse.dropWhile isWordPunct).reverse ++
      (w.reverse.takeWhile isWordPunct).reverse =
      (w.reverse.takeWhile isWordPunct ++ w.reverse.dropWhile isWordPunct).reverse := by
    rw [List.reverse_append]
  rw [stemOf, punctOf, h2, h, List.reverse_reverse]

theorem length_dropWhile_le (p : Char → Bool) (l : List Char) :
    (l.dropWhile p).length ≤ l.length := by
  conv_rhs => rw [← List.takeWhile_append_dropWhile (p := p) (l := l)]
  rw [List.length_append]
  exact Nat.le_add_left _ _

theorem length_stemOf_le (w : List Char) : (stemOf w).length ≤ w.length := by
  calc (stemOf w).length = (w.reverse.dropWhile isWordPunct).length := by
        rw [stemOf, List.length_reverse]
    _ ≤ w.reverse.length := length_dropWhile_le _ _
    _ = w.length := List.length_reverse w

theorem appendToLast_ne_nil (p : List Char) :
    ∀ l : List (List Char), l ≠ [] → appendToLast l p ≠ [] := by
  intro l hl
  match l with
  | [x] => simp [appendToLast]
  | x :: y :: xs => simp [appendToLast]

theorem appendToLast_flatten (p : List Char) :
    ∀ l : List (List Char), l ≠ [] → (appendToLast l p).flatten = l.flatten ++ p := by
  intro l
  induction l with
  | nil => intro h; exact absurd rfl h
  | cons x xs ih =>
    intro _
    match xs with
    | [] => simp [appendToLast]
    | y :: ys =>
      have := ih (by simp)
      simp only [appendToLast, List.flatten_cons, this, List.append_assoc]

theorem appendToLast_head (p : List Char) :
    ∀ l : List (List Char), (∀ s ∈ l, s ≠ [] ∧ ∀ c ∈ s.head?, isSentPunct c = false) →
      ∀ s ∈ appendToLast l p, s ≠ [] ∧ ∀ c ∈ s.head?, isSentPunct c = false := by
  intro l
  induction l with
  | nil => intro _ s hs; simp [appendToLast] at hs
  | cons x xs ih =>
    intro hl s hs
    match xs with
    | [] =>
      simp only [appendToLast, List.mem_singleton] at hs
      subst hs
      obtain ⟨hx1, hx2⟩ := hl x (by simp)
      refine ⟨by simp [hx1], ?_⟩
      intro c hc
      match hx : x with
      | a :: as =>
        simp only [List.cons_append, List.head?_cons, Option.mem_def,
          Option.some.injEq] at hc
        subst hc
        exact hx2 a (by simp)
    | y :: ys =>
      simp only [appendToLast, List.mem_cons] at hs
      rcases hs with rfl | hs
      · exact hl s (by simp)
      · exact ih (fun t ht => hl t (List.mem_cons_of_mem _ ht)) s hs

theorem drop_take_append (s : List Char) (a b : Nat) (hab : a ≤ b) :
    (s.take b).drop a ++ s.drop b = s.drop a := by
  have hb : a + (b - a) = b := by omega
  calc (s.take b).drop a ++ s.drop b
      = (s.drop a).take (b - a) ++ s.drop b := by rw [List.drop_take]
    _ = (s.drop a).take (b - a) ++ (s.drop a).drop (b - a) := by
        rw [List.drop_drop, hb]
    _ = s.drop a := List.take_append_drop _ _

theorem buildSyllables_flatten (s : List Char) :
    ∀ (bs : List Nat) (startIndex : Nat), startIndex < s.length →
      List.Chain' (· ≤ ·) (startIndex :: bs) → (∀ b ∈ bs, b < s.length) →
      (buildSyllables s bs startIndex).flatten = s.drop startIndex := by
  intro bs
  induction bs with
  | nil =>
    intro startIndex h _ _
    simp [buildSyllables, h]
  | cons b bs ih =>
    intro startIndex hs hchain hb
    rw [List.chain'_cons] at hchain
    have hblt : b < s.length := hb b (by simp)
    have htail : ∀ x ∈ bs, x < s.length := fun x hx => hb x (List.mem_cons_of_mem _ hx)
    simp only [buildSyllables, List.flatten_cons]
    rw [jsSubstring, if_pos hchain.1, ih b hblt hchain.2 htail]
    exact drop_take_append s startIndex b hchain.1

theorem splitPosFor_bounds (s : List Char) (a b : Nat) (hab : a < b)
    (hb : b ≤ s.length) :
    a < splitPosFor s a b ∧ splitPosFor s a b ≤ b := by
  have hlen : ((jsSubstring s (a + 1) b).map jsToLower).length = b - (a + 1) := by
    rw [List.length_map, jsSubstring]
    split_ifs with h
    · rw [List.length_drop, List.length_take]
      omega
    · omega
  simp only [splitPosFor, hlen]
  split_ifs <;> omega

theorem splitBoundaries_cons (s : List Char) (a b : Nat) (l : List Nat) :
    splitBoundaries s (a :: b :: l) = splitPosFor s a b :: splitBoundaries s (b :: l) :=
  rfl

theorem splitBoundaries_bounds (s : List Char) :
    ∀ (l : List Nat) (a : Nat), List.Chain' (· < ·) (a :: l) →
      (∀ x ∈ a :: l, x < s.length) →
      List.Chain' (· < ·) (splitBoundaries s (a :: l)) ∧
        ∀ p ∈ splitBoundaries s (a :: l), a < p ∧ p < s.length := by
  intro l
  induction l with
  | nil =>
    intro a _ _
    exact ⟨List.chain'_nil, by simp [splitBoundaries]⟩
  | cons b l ih =>
    intro a hchain hlt
    rw [List.chain'_cons] at hchain
    obtain ⟨hab, hchain'⟩ := hchain
    have hbl : b < s.length := hlt b (by simp)
    have hbound := splitPosFor_bounds s a b hab (le_of_lt hbl)
    obtain ⟨ih1, ih2⟩ := ih b hchain' (fun x hx => hlt x (List.mem_cons_of_mem _ hx))
    rw [splitBoundaries_cons]
    constructor
    · rw [List.chain'_cons']
      refine ⟨?_, ih1⟩
      intro y hy
      have hmem : y ∈ splitBoundaries s (b :: l) := List.mem_of_mem_head? hy
      exact lt_of_le_of_lt hbound.2 (ih2 y hmem).1
    · intro p hp
      rcases List.mem_cons.1 hp with rfl | hp
      · exact ⟨hbound.1, lt_of_le_of_lt hbound.2 hbl⟩
      · exact ⟨lt_trans hab (ih2 p hp).1, (ih2 p hp).2⟩

theorem nucleiPositions_chain (s : List Char) :
    List.Chain' (· < ·) (nucleiPositions s) :=
  ((List.pairwise_lt_range s.length).filter _).chain'

theorem nucleiPositions_lt (s : List Char) :
    ∀ x ∈ nucleiPositions s, x < s.length := by
  intro x hx
  rw [nucleiPositions, List.mem_filter] at hx
  exact List.mem_range.1 hx.1

theorem lookupSpecial_eq_some {k : List Char} {v : List (List Char)}
    (h : lookupSpecial k = some v) : 2 ≤ k.length ∧ v ≠ [] := by
  rw [lookupSpecial] at h
  cases hf : specialCases.find? (fun e => e.1 = k) with
  | none => rw [hf] at h; simp at h
  | some e =>
    rw [hf] at h
    simp only [Option.map_some'] at h
    have hp : e.1 = k := by
      have := List.find?_some hf
      simpa using this
    have hm := List.mem_of_find?_eq_some hf
    subst hp
    have h2 : e.2 = v := Option.some.inj h
    subst h2
    simp only [specialCases, List.mem_cons, List.not_mem_nil, or_false] at hm
    rcases hm with rfl | rfl | rfl | rfl | rfl | rfl | rfl | rfl | rfl | rfl | rfl | rfl <;>
      exact ⟨by decide, by decide⟩

theorem jsSplitSentGo_flatten (l : List Char) :
    ∀ (m : SplitMode) (buf : List Char),
      (jsSplitSentGo l m buf).flatten = buf ++ l := by
  induction l with
  | nil => intro m buf; cases m <;> simp [jsSplitSentGo]
  | cons c rest ih =>
    intro m buf
    cases m <;> simp only [jsSplitSentGo] <;> split_ifs <;>
      simp [ih, List.append_assoc]

theorem jsSplitSentGo_content_head (l : List Char) :
    ∀ buf : List Char, ∃ ps, jsSplitSentGo l SplitMode.content buf =
      (buf ++ l.takeWhile (fun c => !isSentPunct c)) :: ps := by
  induction l with
  | nil => intro buf; exact ⟨[], by simp [jsSplitSentGo]⟩
  | cons c rest ih =>
    intro buf
    by_cases hc : isSentPunct c = true
    · refine ⟨jsSplitSentGo rest SplitMode.punct [c], ?_⟩
      simp [jsSplitSentGo, hc, List.takeWhile_cons]
    · obtain ⟨ps, hps⟩ := ih (buf ++ [c])
      refine ⟨ps, ?_⟩
      rw [jsSplitSentGo]
      rw [if_neg hc, hps]
      simp [List.takeWhile_cons, hc, List.append_assoc]

theorem jsReduceAux_flatten :
    ∀ (parts : List (List Char)) (i : Nat) (acc : List (List Char)),
      acc ≠ [] → 1 ≤ i →
      jsReduceAux i acc parts ≠ [] ∧
        (jsReduceAux i acc parts).flatten = acc.flatten ++ parts.flatten := by
  intro parts
  induction parts with
  | nil =>
    intro i acc hacc _
    exact ⟨by simpa [jsReduceAux] using hacc, by simp [jsReduceAux]⟩
  | cons part rest ih =>
    intro i acc hacc hi
    by_cases hp : part = []
    · subst hp
      have hstep : jsReduceAux i acc ([] :: rest) = jsReduceAux (i + 1) acc rest := by
        simp [jsReduceAux]
      rw [hstep]
      have h2 := ih (i + 1) acc hacc (by omega)
      exact ⟨h2.1, by rw [h2.2]; simp⟩
    · by_cases hq : (part.any isSentPunct && decide (0 < i)) = true
      · obtain ⟨x, xs, rfl⟩ : ∃ x xs, acc = x :: xs := by
          cases acc with
          | nil => exact absurd rfl hacc
          | cons x xs => exact ⟨x, xs, rfl⟩
        simp only [jsReduceAux, if_neg hp, if_pos hq]
        have hne := appendToLast_ne_nil part (x :: xs) (by simp)
        have h2 := ih (i + 1) (appendToLast (x :: xs) part) hne (by omega)
        refine ⟨h2.1, ?_⟩
        rw [h2.2, appendToLast_flatten part (x :: xs) (by simp)]
        simp [List.append_assoc]
      · simp only [jsReduceAux, if_neg hp, if_neg hq]
        have h2 := ih (i + 1) (acc ++ [part]) (by simp) (by omega)
        refine ⟨h2.1, ?_⟩
        rw [h2.2]
        simp [List.append_assoc]

theorem jsReduceAux_heads :
    ∀ (parts : List (List Char)) (i : Nat) (acc : List (List Char)), 1 ≤ i →
      (∀ s ∈ acc, s ≠ [] ∧ ∀ c ∈ s.head?, isSentPunct c = false) →
      ∀ s ∈ jsReduceAux i acc parts,
        s ≠ [] ∧ ∀ c ∈ s.head?, isSentPunct c = false := by
  intro parts
  induction parts with
  | nil => intro i acc _ hacc; simpa [jsReduceAux] using hacc
  | cons part rest ih =>
    intro i acc hi hacc
    by_cases hp : part = []
    · subst hp
      have hstep : jsReduceAux i acc ([] :: rest) = jsReduceAux (i + 1) acc rest := by
        simp [jsReduceAux]
      rw [hstep]
      exact ih (i + 1) acc (by omega) hacc
    · by_cases hq : (part.any isSentPunct && decide (0 < i)) = true
      · cases acc with
        | nil =>
          simp only [jsReduceAux, if_neg hp, if_pos hq]
          exact ih (i + 1) [] (by omega) (by simp)
        | cons x xs =>
          simp only [jsReduceAux, if_neg hp, if_pos hq]
          exact ih (i + 1) _ (by omega) (appendToLast_head part (x :: xs) hacc)
      · simp only [jsReduceAux, if_neg hp, if_neg hq]
        refine ih (i + 1) _ (by omega) ?_
        intro s hs
        rcases List.mem_append.1 hs with hs | hs
        · exact hacc s hs
        · rw [List.mem_singleton] at hs
          subst hs
          have hdi : decide (0 < i) = true := by
            simp only [decide_eq_true_eq]
            omega
          have hany : s.any isSentPunct = false := by
            cases hA : s.any isSentPunct
            · rfl
            · exact absurd (by simp [hA, hdi]) hq
          refine ⟨hp, ?_⟩
          intro c hc
          have hcmem : c ∈ s := List.mem_of_mem_head? hc
          have := List.any_eq_false.1 hany c hcmem
          simpa using this

theorem processedText_text_ne (t : List Char) :
    ∀ seg ∈ processedText t, seg.text ≠ [] := by
  intro seg hseg
  rw [processedText] at hseg
  split_ifs at hseg with ht
  · simp at hseg
  · rw [List.mem_filterMap] at hseg
    obtain ⟨sentence, _, hsen⟩ := hseg
    by_cases htr : jsTrim sentence = []
    · rw [if_pos htr] at hsen
      simp at hsen
    · rw [if_neg htr] at hsen
      have h2 := Option.some.inj hsen
      rw [← h2]
      simpa using htr

theorem splitPosFor_eq_claim (s : List Char) (a b : Nat) :
    splitPosFor s a b = claimSplitPos s a b := by
  simp only [splitPosFor, claimSplitPos]
  set cl := (jsSubstring s (a + 1) b).map jsToLower with hcl
  by_cases h0 : cl.length = 0
  · rw [if_pos h0, if_pos (show cl.length ≤ 1 by omega)]
  · by_cases h1 : cl.length = 1
    · rw [if_neg h0, if_pos h1, if_pos (show cl.length ≤ 1 by omega)]
    · by_cases h2 : cl.length = 2
      · rw [if_neg h0, if_neg h1, if_pos h2,
            if_neg (show ¬cl.length ≤ 1 by omega), if_pos h2,
            Bool.and_or_distrib_left]
      · rw [if_neg h0, if_neg h1, if_neg h2,
            if_neg (show ¬cl.length ≤ 1 by omega), if_neg h2]

theorem splitBoundaries_eq_claim (s : List Char) :
    ∀ l : List Nat, splitBoundaries s l = claimBoundaries s l := by
  intro l
  induction l with
  | nil => rfl
  | cons a tail ih =>
    cases tail with
    | nil => rfl
    | cons b rest =>
      rw [splitBoundaries_cons, ih]
      rw [show claimBoundaries s (a :: b :: rest) =
        claimSplitPos s a b :: claimBoundaries s (b :: rest) from rfl]
      rw [splitPosFor_eq_claim]

/-! ### The claims -/

/-- C1 (counterexample): the round-trip invariant fails as stated — the
special-case table entry for `odlákat` stores the syllables
`od`, `lá`, `kát`, which concatenate to `odlákát`, not to the input. -/
theorem claim1_counterexample :
    String.join (syllabifyStr "odlákat") ≠ "odlákat" := by decide

/-- C1 (amended): for every word whose lowercased punctuation-free stem is
not a key of the special-case table, concatenating the syllables returned
by `splitIntoSyllables`, in order, reproduces the word exactly, including
any trailing punctuation and the original casing. -/
theorem claim1_roundtrip (w : List Char)
    (h : lookupSpecial ((stemOf w).map jsToLower) = none) :
    (splitIntoSyllables w).flatten = w := by
  rw [splitIntoSyllables]
  split_ifs with hlen
  · simp
  · simp only [h]
    rcases hns : nucleiPositions (stemOf w) with _ | ⟨a, tail⟩
    · simp
    · rcases tail with _ | ⟨b, rest⟩
      · simp
      · simp only [List.length_cons]
        rw [if_neg (by omega), if_neg (by omega)]
        have hchain := nucleiPositions_chain (stemOf w)
        have hlt := nucleiPositions_lt (stemOf w)
        rw [hns] at hchain hlt
        obtain ⟨hbchain, hbmem⟩ := splitBoundaries_bounds (stemOf w) (b :: rest) a hchain hlt
        have h0len : 0 < (stemOf w).length := lt_of_le_of_lt (Nat.zero_le a) (hlt a (by simp))
        have hflat : (buildSyllables (stemOf w)
            (splitBoundaries (stemOf w) (a :: b :: rest)) 0).flatten = stemOf w := by
          rw [buildSyllables_flatten (stemOf w) _ 0 h0len ?_ ?_, List.drop_zero]
          · rw [List.chain'_cons']
            exact ⟨fun y _ => Nat.zero_le y, hbchain.imp (fun x y => le_of_lt)⟩
          · intro x hx
            exact (hbmem x hx).2
        split_ifs with hp
        · rw [hflat]
          conv_rhs => rw [← stemOf_append_punctOf w]
          rw [hp, List.append_nil]
        · have hnn : buildSyllables (stemOf w)
              (splitBoundaries (stemOf w) (a :: b :: rest)) 0 ≠ [] := by
            rw [splitBoundaries_cons]
            simp [buildSyllables]
          rw [appendToLast_flatten _ _ hnn, hflat, stemOf_append_punctOf]

/-- Witness for C1 (amended) at the word `Pes.` (capitalized, trailing
punctuation, stem not in the special-case table). -/
theorem claim1_roundtrip_witness :
    lookupSpecial ((stemOf "Pes.".toList).map jsToLower) = none ∧
      (splitIntoSyllables "Pes.".toList).flatten = "Pes.".toList :=
  ⟨by decide, claim1_roundtrip _ (by decide)⟩

/-- C2 (counterexample): on the input `.a`, whose first character is a
sentence-ending punctuation character, the `reduce` callback runs with an
empty accumulator and `acc[acc.length - 1] += part` assigns to array
property `-1`, so the leading `.` is silently dropped: the produced
sentences are `["a"]` and the input's characters are not all accounted
for. -/
theorem claim2_counterexample :
    sentencesOfStr ".a" = ["a"] ∧ String.join (sentencesOfStr ".a") ≠ ".a" := by
  decide

/-- C2 (amended): for every input text that does not begin with a
sentence-ending punctuation character, (a) every character of the input is
accounted for in exactly one sentence (the sentences concatenate to the
input), (b) every produced sentence is non-empty and never starts with a
sentence-ending punctuation character (punctuation runs are appended to the
sentence they terminate), and (c) whitespace-only fragments are discarded
(every emitted segment has non-empty trimmed text). -/
theorem claim2_sentences (t : List Char)
    (h : (t.head?.all fun c => !isSentPunct c) = true) :
    (sentencesOf t).flatten = t ∧
      (∀ s ∈ sentencesOf t, s ≠ [] ∧ ∀ c ∈ s.head?, isSentPunct c = false) ∧
      (∀ seg ∈ processedText t, seg.text ≠ []) := by
  cases t with
  | nil =>
    have hnil : sentencesOf [] = [] := rfl
    refine ⟨by rw [hnil]; rfl, ?_, processedText_text_ne []⟩
    intro s hs
    rw [hnil] at hs
    simp at hs
  | cons c t' =>
    have hc : isSentPunct c = false := by
      rw [List.head?_cons, Option.all_some] at h
      simpa using h
    obtain ⟨ps, hps⟩ := jsSplitSentGo_content_head (c :: t') []
    rw [List.nil_append] at hps
    have htake : (c :: t').takeWhile (fun d => !isSentPunct d) =
        c :: t'.takeWhile (fun d => !isSentPunct d) := by
      rw [List.takeWhile_cons]
      simp [hc]
    set p0 := (c :: t').takeWhile (fun d => !isSentPunct d) with hp0def
    have hp0ne : p0 ≠ [] := by
      rw [htake]
      simp
    have hp0head : ∀ d ∈ p0.head?, isSentPunct d = false := by
      intro d hd
      have hmem : d ∈ p0 := List.mem_of_mem_head? hd
      rw [hp0def] at hmem
      have := List.mem_takeWhile_imp hmem
      simpa using this
    have hsplit : jsSplitSent (c :: t') = p0 :: ps := by
      rw [jsSplitSent, hps]
    have hstep : jsReduceAux 0 [] (p0 :: ps) = jsReduceAux 1 [p0] ps := by
      simp only [jsReduceAux]
      rw [if_neg hp0ne,
          if_neg (show ¬(p0.any isSentPunct && decide (0 < 0)) = true by simp)]
      rw [List.nil_append]
    have hflat_parts : p0 ++ ps.flatten = c :: t' := by
      have h3 := jsSplitSentGo_flatten (c :: t') SplitMode.content []
      rw [hps] at h3
      simpa using h3
    obtain ⟨hne, hfl⟩ := jsReduceAux_flatten ps 1 [p0] (by simp) (le_refl 1)
    refine ⟨?_, ?_, processedText_text_ne _⟩
    · rw [sentencesOf, hsplit, hstep, List.flatten_filter_not_isEmpty, hfl]
      simpa using hflat_parts
    · intro s hs
      rw [sentencesOf, hsplit, hstep] at hs
      have hs2 := (List.mem_filter.1 hs).1
      refine jsReduceAux_heads ps 1 [p0] (le_refl 1) ?_ s hs2
      intro u hu
      rw [List.mem_singleton] at hu
      subst hu
      exact ⟨hp0ne, hp0head⟩

/-- Witness for C2 (amended) at the two-sentence text `Znáte krtka? Ano.`:
the hypothesis and the round-trip conjunct are evaluated concretely. -/
theorem claim2_sentences_witness :
    (("Znáte krtka? Ano.".toList.head?.all fun c => !isSentPunct c) = true) ∧
      (sentencesOf "Znáte krtka? Ano.".toList).flatten = "Znáte krtka? Ano.".toList :=
  ⟨by decide, (claim2_sentences _ (by decide)).1⟩

/-- C3: for every word with at least two nuclei whose stem is not a
special-case key, the syllables are exactly those obtained by placing the
boundary between each adjacent pair of nuclei according to the claim's
count-based rule (`claimSplitPos`), with the trailing punctuation
reattached to the last syllable. -/
theorem claim3_boundaries (w : List Char)
    (hsp : lookupSpecial ((stemOf w).map jsToLower) = none)
    (hn : 2 ≤ (nucleiPositions (stemOf w)).length) :
    splitIntoSyllables w =
      (if punctOf w = [] then
        buildSyllables (stemOf w)
          (claimBoundaries (stemOf w) (nucleiPositions (stemOf w))) 0
       else
        appendToLast
          (buildSyllables (stemOf w)
            (claimBoundaries (stemOf w) (nucleiPositions (stemOf w))) 0)
          (punctOf w)) := by
  have hfil : (nucleiPositions (stemOf w)).length ≤ (stemOf w).length := by
    rw [nucleiPositions]
    calc (List.filter (fun i => isNucleus (stemOf w) i)
          (List.range (stemOf w).length)).length
        ≤ (List.range (stemOf w).length).length := List.length_filter_le _ _
      _ = (stemOf w).length := List.length_range _
  have hw : 2 ≤ w.length := le_trans (le_trans hn hfil) (length_stemOf_le w)
  rw [splitIntoSyllables, if_neg (by omega)]
  simp only [hsp]
  rcases hns : nucleiPositions (stemOf w) with _ | ⟨a, tail⟩
  · rw [hns] at hn
    simp at hn
  · rcases tail with _ | ⟨b, rest⟩
    · rw [hns] at hn
      simp at hn
    · rw [if_neg (show ¬(a :: b :: rest).length = 0 by simp),
          if_neg (show ¬(a :: b :: rest).length = 1 by simp),
          splitBoundaries_eq_claim]

/-- Witness for C3 at the three-nucleus word `domeček`. -/
theorem claim3_boundaries_witness :
    (lookupSpecial ((stemOf "domeček".toList).map jsToLower) = none ∧
        2 ≤ (nucleiPositions (stemOf "domeček".toList)).length) ∧
      splitIntoSyllables "domeček".toList =
        (if punctOf "domeček".toList = [] then
          buildSyllables (stemOf "domeček".toList)
            (claimBoundaries (stemOf "domeček".toList)
              (nucleiPositions (stemOf "domeček".toList))) 0
         else
          appendToLast
            (buildSyllables (stemOf "domeček".toList)
              (claimBoundaries (stemOf "domeček".toList)
                (nucleiPositions (stemOf "domeček".toList))) 0)
            (punctOf "domeček".toList)) :=
  ⟨⟨by decide, by decide⟩, claim3_boundaries _ (by decide) (by decide)⟩

/-- C4: special-case table entries are honored verbatim — `krtka` and
`mrkev` give the stored sequences, and in general a word whose lowercased
stem is a key gives the stored sequence with any stripped trailing
punctuation appended to its last element. -/
theorem claim4_special_cases :
    syllabifyStr "krtka" = ["krt", "ka"] ∧ syllabifyStr "mrkev" = ["mr", "kev"] ∧
      ∀ (w : List Char) (v : List (List Char)),
        lookupSpecial ((stemOf w).map jsToLower) = some v →
        splitIntoSyllables w =
          (if punctOf w = [] then v else appendToLast v (punctOf w)) := by
  refine ⟨by decide, by decide, ?_⟩
  intro w v hv
  have hk := (lookupSpecial_eq_some hv).1
  have hw : 2 ≤ w.length := by
    have h1 : ((stemOf w).map jsToLower).length = (stemOf w).length :=
      List.length_map _ _
    have h2 := length_stemOf_le w
    omega
  rw [splitIntoSyllables, if_neg (by omega)]
  simp only [hv]

/-- Witness for C4 at the capitalized, punctuated word `Zahrady,`. -/
theorem claim4_special_cases_witness :
    lookupSpecial ((stemOf "Zahrady,".toList).map jsToLower) =
        some ["za".toList, "hra".toList, "dy".toList] ∧
      splitIntoSyllables "Zahrady,".toList =
        (if punctOf "Zahrady,".toList = [] then ["za".toList, "hra".toList, "dy".toList]
         else appendToLast ["za".toList, "hra".toList, "dy".toList]
           (punctOf "Zahrady,".toList)) :=
  ⟨by decide, claim4_special_cases.2.2 _ _ (by decide)⟩

/-- C5: for every non-empty word, `splitIntoSyllables` returns a non-empty
sequence of syllables. -/
theorem claim5_nonempty (w : List Char) (h : w ≠ []) :
    splitIntoSyllables w ≠ [] := by
  rw [splitIntoSyllables]
  split_ifs with hlen
  · simp
  · cases hsp : lookupSpecial ((stemOf w).map jsToLower) with
    | some v =>
      simp only [hsp]
      have hv := (lookupSpecial_eq_some hsp).2
      split_ifs with hp
      · exact hv
      · exact appendToLast_ne_nil _ _ hv
    | none =>
      simp only [hsp]
      rcases hns : nucleiPositions (stemOf w) with _ | ⟨a, tail⟩
      · simp
      · rcases tail with _ | ⟨b, rest⟩
        · simp
        · simp only [List.length_cons]
          rw [if_neg (by omega), if_neg (by omega)]
          split_ifs with hp
          · rw [splitBoundaries_cons]
            simp [buildSyllables]
          · refine appendToLast_ne_nil _ _ ?_
            rw [splitBoundaries_cons]
            simp [buildSyllables]

/-- Witness for C5 at the word `krtka`. -/
theorem claim5_nonempty_witness :
    "krtka".toList ≠ ([] : List Char) ∧ splitIntoSyllables "krtka".toList ≠ [] :=
  ⟨by decide, claim5_nonempty _ (by decide)⟩

/-- C6: a word of length at least 2 whose stem is not a special-case key
and has at most one nucleus comes back as a single syllable, the stem with
the stripped trailing punctuation reattached (i.e. the original word). -/
theorem claim6_degenerate (w : List Char) (h2 : 2 ≤ w.length)
    (hsp : lookupSpecial ((stemOf w).map jsToLower) = none)
    (hn : (nucleiPositions (stemOf w)).length ≤ 1) :
    splitIntoSyllables w = [stemOf w ++ punctOf w] := by
  rw [splitIntoSyllables, if_neg (by omega)]
  simp only [hsp]
  rcases hns : nucleiPositions (stemOf w) with _ | ⟨a, tail⟩
  · simp [stemOf_append_punctOf]
  · rcases tail with _ | ⟨b, rest⟩
    · simp [stemOf_append_punctOf]
    · rw [hns] at hn
      simp at hn

/-- Witness for C6 at the one-nucleus word `krk.` with punctuation. -/
theorem claim6_degenerate_witness :
    (2 ≤ "krk.".toList.length ∧
        lookupSpecial ((stemOf "krk.".toList).map jsToLower) = none ∧
        (nucleiPositions (stemOf "krk.".toList)).length ≤ 1) ∧
      splitIntoSyllables "krk.".toList =
        [stemOf "krk.".toList ++ punctOf "krk.".toList] :=
  ⟨⟨by decide, by decide, by decide⟩,
    claim6_degenerate _ (by decide) (by decide) (by decide)⟩

/-- C7: on the empty string, the segmentation pipeline returns an empty
segment sequence (as a Lean function the embedding is total by
construction). -/
theorem claim7_segment_empty : processedTextStr "" = [] := by decide

/-- C8: segmentation is deterministic and free of hidden state — the
`processedText` of a store state depends only on the source text, not on
the reading mode or voice settings. -/
theorem claim8_deterministic {R V : Type} (s1 s2 : StoreState R V)
    (h : s1.originalText = s2.originalText) :
    processedTextOf s1 = processedTextOf s2 := by
  rw [processedTextOf, processedTextOf, h]

/-- Witness for C8: two states with the same text but different reading
modes and voice settings produce identical segment sequences. -/
theorem claim8_deterministic_witness :
    (StoreState.mk "Jde pes.".toList ReadingMode.syllables
        ⟨1, 1, none⟩ : StoreState Nat Nat).originalText =
      (StoreState.mk "Jde pes.".toList ReadingMode.sentences
        ⟨2, 3, some 5⟩ : StoreState Nat Nat).originalText ∧
      processedTextOf (StoreState.mk "Jde pes.".toList ReadingMode.syllables
        ⟨1, 1, none⟩ : StoreState Nat Nat) =
        processedTextOf (StoreState.mk "Jde pes.".toList ReadingMode.sentences
          ⟨2, 3, some 5⟩ : StoreState Nat Nat) :=
  ⟨rfl, claim8_deterministic _ _ rfl⟩

/-- C9: the special-case table returns its stored all-lowercase syllables
regardless of the original word's casing; in particular `Krtka` gives
`["krt", "ka"]` and not `["Krt", "ka"]`. -/
theorem claim9_lowercase_special :
    syllabifyStr "Krtka" = ["krt", "ka"] ∧ syllabifyStr "Krtka" ≠ ["Krt", "ka"] ∧
      ∀ (w : List Char) (v : List (List Char)),
        lookupSpecial ((stemOf w).map jsToLower) = some v → punctOf w = [] →
        splitIntoSyllables w = v := by
  refine ⟨by decide, by decide, ?_⟩
  intro w v hv hp
  have hk := (lookupSpecial_eq_some hv).1
  have hw : 2 ≤ w.length := by
    have h1 : ((stemOf w).map jsToLower).length = (stemOf w).length :=
      List.length_map _ _
    have h2 := length_stemOf_le w
    omega
  rw [splitIntoSyllables, if_neg (by omega)]
  simp only [hv, hp, if_pos]

/-- Witness for C9 at the capitalized word `Mrkev`. -/
theorem claim9_lowercase_special_witness :
    (lookupSpecial ((stemOf "Mrkev".toList).map jsToLower) =
        some ["mr".toList, "kev".toList] ∧ punctOf "Mrkev".toList = []) ∧
      splitIntoSyllables "Mrkev".toList = ["mr".toList, "kev".toList] :=
  ⟨⟨by decide, by decide⟩, claim9_lowercase_special.2.2 _ _ (by decide) (by decide)⟩

/-- C10: on the empty string, `splitIntoSyllables` returns the one-element
sequence containing the empty string. -/
theorem claim10_empty_word : syllabifyStr "" = [""] := by decide

end Slabikyx
